import Mathlib

/-!
Verification of the lazy-sequence and date exercises of the repository
(`src/task/03-date-tasks.js`): the sorted-sequence merge generator, the
Fibonacci generator, the depth-first and breadth-first tree traversal
generators, the leap-year predicate and the "99 bottles of beer" generator.

JavaScript generators are embedded as explicit state machines / fuelled
recursions producing lists of yielded values; the JS value `undefined`
(returned by `next().value` of an exhausted iterator) is modelled as
`Option.none`, a produced number as `some v`.
-/

namespace DateTasks

/-! ## Sorted-sequence merge (`mergeSortedSequences`)

The JS generator calls the two source generator functions once, then loops
forever: each iteration pulls one value from each of the two iterators
(`seq1.next().value`, `seq2.next().value`), and

  * if the first pull is `undefined`, yields the second pull (whatever it is);
  * else if the second pull is `undefined`, yields the first;
  * else yields `Math.min` of the two, then `Math.max`.

A source iterator is modelled as a function `ℕ → Option ℤ` giving the value
of its `k`-th `next()` call (`none` = `undefined`, i.e. exhausted at that
pull).  One loop iteration of the merge is `mergeRound`; the `k`-th loop
iteration pulls index `k` of each source, which is `mergeRoundAt`; the
concatenation of the values yielded by the first `n` loop iterations is
`mergeOut`. -/

/-- One iteration of the merge loop body: the two pulled values in, the
values yielded during this iteration out. -/
def mergeRound (s1 s2 : Option ℤ) : List (Option ℤ) :=
  match s1, s2 with
  | none, _ => [s2]
  | some _, none => [s1]
  | some a, some b => [some (min a b), some (max a b)]

/-- The values yielded during iteration `k` of the merge loop: iteration `k`
performs the `k`-th pull on each source. -/
def mergeRoundAt (s1 s2 : ℕ → Option ℤ) (k : ℕ) : List (Option ℤ) :=
  mergeRound (s1 k) (s2 k)

/-- All values yielded during the first `n` iterations of the merge loop. -/
def mergeOut (s1 s2 : ℕ → Option ℤ) : ℕ → List (Option ℤ)
  | 0 => []
  | n + 1 =>
      mergeRound (s1 0) (s2 0) ++
        mergeOut (fun k => s1 (k + 1)) (fun k => s2 (k + 1)) n

/-- A finite source generator over the values of a list: pull `k` yields the
`k`-th element, and `undefined` (`none`) once the list is exhausted —
exactly how a JS generator over a finite sequence behaves. -/
def listSource (l : List ℤ) (k : ℕ) : Option ℤ :=
  l.get? k

/-- The generator of the odd numbers `1, 3, 5, ...` (infinite). -/
def oddSource (k : ℕ) : Option ℤ :=
  some (2 * (k : ℤ) + 1)

/-- The generator of the even numbers `2, 4, 6, ...` (infinite). -/
def evenSource (k : ℕ) : Option ℤ :=
  some (2 * (k : ℤ) + 2)

/-- Reference merge of two finite lists following the code's round policy:
consume one value from each list per round and emit the smaller then the
larger; once one list is exhausted, forward the other's values. -/
def mergeLists : List ℤ → List ℤ → List ℤ
  | [], l2 => l2
  | a :: l1, [] => a :: l1
  | a :: l1, b :: l2 => min a b :: max a b :: mergeLists l1 l2

/-! ## Fibonacci generator (`getFibonacciSequence`)

The JS generator keeps a growing memo array `values = [0, 1]` and, for
`i = 0 .. 38`, yields `getNextValues(values, i)`, which pushes
`values[i-2] + values[i-1]` when `i` is past the end of the array and then
returns `values[i]`.  The memo array is threaded explicitly; the returned
JS value (`number` or `undefined` for an out-of-range read) is `Option ℤ`. -/

/-- One call of `getNextValues`: the (possibly extended) memo array together
with the returned value `values[index]`. -/
def getNextValues (values : List ℤ) (index : ℕ) : List ℤ × Option ℤ :=
  let grown :=
    if values.length ≤ index then
      values ++ [values.getD (index - 2) 0 + values.getD (index - 1) 0]
    else values
  (grown, grown.get? index)

/-- The loop of `getFibonacciSequence`: `n` remaining iterations, current
loop index `i`, current memo array; returns the list of yielded values. -/
def fibRun : ℕ → ℕ → List ℤ → List (Option ℤ)
  | 0, _, _ => []
  | n + 1, i, values =>
      let step := getNextValues values i
      step.2 :: fibRun n (i + 1) step.1

/-- All values yielded by `getFibonacciSequence()`: the loop runs for
`i = 0 .. 38` starting from the memo `[0, 1]`, then the generator returns. -/
def getFibonacciSequence : List (Option ℤ) :=
  fibRun 39 0 [0, 1]

/-- The Fibonacci numbers as the specification defines them:
`term(0) = 0`, `term(1) = 1`, `term(n) = term(n-1) + term(n-2)`. -/
def fibSpec : ℕ → ℤ
  | 0 => 0
  | 1 => 1
  | n + 2 => fibSpec (n + 1) + fibSpec n

/-! ## Leap years (`isLeapYear`)

`isLeapYear` reads `date.getFullYear()` and combines three remainder tests;
the date is modelled by its full year.  JS `%` on integers is a truncated
remainder while Lean's `%` on `ℤ` is the Euclidean one, but both are zero
exactly on multiples of the (positive) divisor, which is all the code
tests. -/

/-- Embedding of `isLeapYear`, on the date's full year. -/
def isLeapYear (year : ℤ) : Bool :=
  let divedeByFour := year % 4 == 0
  let notDivedeByOneHundred := year % 100 != 0
  let divedeByFourHundred := year % 400 == 0
  divedeByFour && notDivedeByOneHundred || divedeByFourHundred

/-! ## 99 bottles of beer (`get99BottlesOfBeer`)

The generator loops `i = 99` down to `1`, yielding a verse line and a
take-down line per `i` (with `bottles(i)` choosing between "1 bottle" and
"`i` bottles", and a special take-down when `i === 1`), then yields the two
closing lines. -/

/-- The `bottles` helper of the code: singular for 1, plural otherwise. -/
def bottles (i : ℕ) : String :=
  if i = 1 then "1 bottle" else toString i ++ " bottles"

/-- The generator's loop, by the remaining count `i` (descending). -/
def beerLoop : ℕ → List String
  | 0 => []
  | i + 1 =>
      (bottles (i + 1) ++ " of beer on the wall, " ++ bottles (i + 1) ++
          " of beer.") ::
        (if i + 1 = 1 then
          "Take one down and pass it around, no more bottles of beer on the wall."
        else
          "Take one down and pass it around, " ++ bottles i ++
            " of beer on the wall.") ::
        beerLoop i

/-- All lines yielded by `get99BottlesOfBeer()`. -/
def get99BottlesOfBeer : List String :=
  beerLoop 99 ++
    ["No more bottles of beer on the wall, no more bottles of beer.",
     "Go to the store and buy some more, 99 bottles of beer on the wall."]

/-- Specification-side text of the song, following the claim's words: for
each count `i` from 99 down to 1 a verse line and a take-down line (singular
"1 bottle" when the count in the line is 1, "no more bottles" in the final
take-down), then the two fixed closing lines. -/
def beerSongSpec : List String :=
  ((List.range 99).map (fun k => 99 - k)).flatMap
      (fun i =>
        [bottles i ++ " of beer on the wall, " ++ bottles i ++ " of beer.",
         if i = 1 then
           "Take one down and pass it around, no more bottles of beer on the wall."
         else
           "Take one down and pass it around, " ++ bottles (i - 1) ++
             " of beer on the wall."]) ++
    ["No more bottles of beer on the wall, no more bottles of beer.",
     "Go to the store and buy some more, 99 bottles of beer on the wall."]

/-! ## Trees and the two traversal generators

A tree node in the JS code is an object with an opaque payload and a
`children` array (absent on leaves; absent and empty are equivalent for the
code).  Nodes are identified by their payload number `n` from the documented
examples.  Because `depthTraversalTree` mutates the `children` arrays in
place (`curr.children.reverse()`), the heap is modelled explicitly: a
`Store` maps a node id to its current list of children ids, and the
traversals are state machines over the store and a work list.

An immutable `Node` inductive describes the tree the caller constructed;
`storeOf` is the initial heap of such a tree. -/

inductive Node where
  | mk : ℕ → List Node → Node

/-- The id (payload) of a node. -/
def nodeId : Node → ℕ
  | .mk n _ => n

/-- The declared children of a node. -/
def childNodes : Node → List Node
  | .mk _ cs => cs

/-- Number of nodes of a forest. -/
def sizeF : List Node → ℕ
  | [] => 0
  | .mk _ cs :: ts => 1 + sizeF cs + sizeF ts

/-- Pre-order listing of the node ids of a forest: each root before its
subtree, subtrees in declaration order, trees left to right. -/
def preorderF : List Node → List ℕ
  | [] => []
  | .mk i cs :: ts => i :: (preorderF cs ++ preorderF ts)

/-- Pre-order listing of the node ids of a tree. -/
def preorder (t : Node) : List ℕ :=
  preorderF [t]

/-- Height of a forest (a single leaf has depth 1). -/
def depthF : List Node → ℕ
  | [] => 0
  | .mk _ cs :: ts => max (1 + depthF cs) (depthF ts)

/-- Find the children ids of node `j` in a forest (first match wins). -/
def lookupF : List Node → ℕ → Option (List ℕ)
  | [], _ => none
  | .mk i cs :: ts, j =>
      if j = i then some (cs.map nodeId)
      else
        match lookupF cs j with
        | some l => some l
        | none => lookupF ts j

/-- The mutable heap: each node id's current children-ids array. -/
abbrev Store := ℕ → List ℕ

/-- Overwrite one node's children array. -/
def updateStore (st : Store) (i : ℕ) (l : List ℕ) : Store :=
  fun j => if j = i then l else st j

/-- The heap of a freshly constructed tree (ids outside the tree are
leaves). -/
def storeOf (t : Node) : Store :=
  fun j => (lookupF [t] j).getD []

/-- `agreesF st ts`: the heap `st` records, for every node of the forest
`ts`, exactly that node's declared children ids. -/
def agreesF (st : Store) : List Node → Bool
  | [] => true
  | .mk i cs :: ts =>
      decide (st i = cs.map nodeId) && agreesF st cs && agreesF st ts

/-- The `depthTraversalTree` generator run to completion (or until `fuel`
runs out): the work list is a stack (top = head here); a step pops a node,
yields it, reverses its children array **in place** and pushes the reversed
array's elements.  Returns the yielded ids and the final heap. -/
def depthRun : ℕ → Store → List ℕ → List ℕ × Store
  | 0, st, _ => ([], st)
  | _ + 1, st, [] => ([], st)
  | fuel + 1, st, curr :: rest =>
      let ch := st curr
      let st1 := updateStore st curr ch.reverse
      let res := depthRun fuel st1 (ch ++ rest)
      (curr :: res.1, res.2)

/-- The `breadthTraversalTree` generator run to completion (or until `fuel`
runs out): `for (let node of nodes)` walks the array while the loop body
appends children, so the pending part of the array is a FIFO queue; the
heap is never written. -/
def breadthRun : ℕ → Store → List ℕ → List ℕ
  | 0, _, _ => []
  | _ + 1, _, [] => []
  | fuel + 1, st, n :: rest => n :: breadthRun fuel st (rest ++ st n)

/-- The documented example tree of `depthTraversalTree`:
node1 has children `[node2, node6, node7]`, node2 `[node3, node4]`,
node4 `[node5]`, node7 `[node8]`. -/
def exTreeD : Node :=
  .mk 1 [.mk 2 [.mk 3 [], .mk 4 [.mk 5 []]], .mk 6 [], .mk 7 [.mk 8 []]]

/-- The documented example of `depthTraversalTree` as the JS object graph
the caller builds: the heap with `node1.children = [2, 6, 7]`,
`node2.children = [3, 4]`, `node4.children = [5]`, `node7.children = [8]`,
every other node a leaf. -/
def exStoreD : Store := fun j =>
  if j = 1 then [2, 6, 7]
  else if j = 2 then [3, 4]
  else if j = 4 then [5]
  else if j = 7 then [8]
  else []

/-- The documented example tree of `breadthTraversalTree`:
node1 has children `[node2, node3, node4]`, node2 `[node5, node6]`,
node4 `[node7]`, node6 `[node8]`. -/
def exTreeB : Node :=
  .mk 1 [.mk 2 [.mk 5 [], .mk 6 [.mk 8 []]], .mk 3 [], .mk 4 [.mk 7 []]]

/-- The breadth-first production order of a forest: produce the first
root, then process the remaining roots followed by the first root's
children. -/
def bfsForest : List Node → List ℕ
  | [] => []
  | .mk i cs :: ts => i :: bfsForest (ts ++ cs)
termination_by ts => sizeF ts
decreasing_by
  have happ : ∀ a b : List Node, sizeF (a ++ b) = sizeF a + sizeF b := by
    intro a
    induction a using sizeF.induct with
    | case1 => intro b; simp [sizeF]
    | case2 j ds as _ ih2 =>
        intro b
        simp only [List.cons_append, sizeF, ih2]
        omega
  simp [happ, sizeF]
  omega

/-- Specification-side level order: the roots of the forest, then the
next `d` generations of their children, each generation left to right. -/
def levelsF : ℕ → List Node → List (List ℕ)
  | 0, _ => []
  | d + 1, ts => ts.map nodeId :: levelsF d (ts.flatMap childNodes)

/-- Specification-side level order of a tree: all generations,
concatenated. -/
def levelOrderSpec (t : Node) : List ℕ :=
  (levelsF (depthF [t]) [t]).flatten

/-! ### Forest lemmas -/

theorem nodeId_mk (i : ℕ) (cs : List Node) : nodeId (.mk i cs) = i := rfl

theorem childNodes_mk (i : ℕ) (cs : List Node) :
    childNodes (.mk i cs) = cs := rfl

/-! ### Merge source lemmas -/

theorem listSource_nil (k : ℕ) : listSource [] k = none := rfl

theorem listSource_cons_zero (a : ℤ) (l : List ℤ) :
    listSource (a :: l) 0 = some a := rfl

theorem listSource_cons_succ (a : ℤ) (l : List ℤ) (k : ℕ) :
    listSource (a :: l) (k + 1) = listSource l k := rfl

theorem listSource_shift_nil :
    (fun k => listSource [] (k + 1)) = listSource [] := rfl

theorem listSource_shift_cons (a : ℤ) (l : List ℤ) :
    (fun k => listSource (a :: l) (k + 1)) = listSource l := rfl

theorem mergeOut_eq_rounds (n : ℕ) :
    ∀ s1 s2 : ℕ → Option ℤ,
      mergeOut s1 s2 n = (List.range n).flatMap (mergeRoundAt s1 s2) := by
  induction n with
  | zero => intro s1 s2; rfl
  | succ n ih =>
      intro s1 s2
      rw [List.range_succ_eq_map]
      simp only [List.flatMap_cons, List.flatMap_map, mergeOut]
      rw [ih]
      rfl

theorem mergeOut_listSource_nil (l2 : List ℤ) :
    mergeOut (listSource []) (listSource l2) l2.length = l2.map some := by
  induction l2 with
  | nil => rfl
  | cons b l2 ih =>
      show mergeRound (listSource [] 0) (listSource (b :: l2) 0) ++ _ = _
      rw [listSource_shift_nil, listSource_shift_cons, ih]
      rfl

theorem mergeOut_nil_listSource (l1 : List ℤ) :
    mergeOut (listSource l1) (listSource []) l1.length = l1.map some := by
  induction l1 with
  | nil => rfl
  | cons a l1 ih =>
      show mergeRound (listSource (a :: l1) 0) (listSource [] 0) ++ _ = _
      rw [listSource_shift_cons, listSource_shift_nil, ih]
      rfl

theorem mergeOut_listSource (l1 : List ℤ) :
    ∀ l2 : List ℤ,
      mergeOut (listSource l1) (listSource l2) (max l1.length l2.length) =
        (mergeLists l1 l2).map some := by
  induction l1 with
  | nil =>
      intro l2
      simpa [mergeLists] using mergeOut_listSource_nil l2
  | cons a l1 ih =>
      intro l2
      cases l2 with
      | nil =>
          simpa [mergeLists] using mergeOut_nil_listSource (a :: l1)
      | cons b l2 =>
          rw [List.length_cons, List.length_cons, Nat.succ_max_succ]
          show mergeRound (listSource (a :: l1) 0) (listSource (b :: l2) 0)
              ++ _ = _
          rw [listSource_shift_cons, listSource_shift_cons, ih l2]
          rfl

theorem mergeLists_perm (l1 : List ℤ) :
    ∀ l2 : List ℤ, (mergeLists l1 l2).Perm (l1 ++ l2) := by
  induction l1 with
  | nil => intro l2; simp [mergeLists]
  | cons a l1 ih =>
      intro l2
      cases l2 with
      | nil => simp [mergeLists]
      | cons b l2 =>
          have hrest : (mergeLists l1 l2).Perm (l1 ++ l2) := ih l2
          have hpair : (min a b :: max a b :: mergeLists l1 l2).Perm
              (a :: b :: (l1 ++ l2)) := by
            rcases le_total a b with h | h
            · rw [min_eq_left h, max_eq_right h]
              exact (hrest.cons _).cons _
            · rw [min_eq_right h, max_eq_left h]
              exact ((hrest.cons _).cons _).trans (List.Perm.swap _ _ _)
          refine hpair.trans ?_
          exact (List.perm_middle.symm.cons a)

/-! ### Fibonacci lemma -/

theorem fibSpec_eq_fib : ∀ n : ℕ, fibSpec n = (Nat.fib n : ℤ) := by
  intro n
  induction n using Nat.strong_induction_on with
  | _ n ih =>
      match n with
      | 0 => rfl
      | 1 => rfl
      | n + 2 =>
          rw [fibSpec, ih (n + 1) (by omega), ih n (by omega),
            Nat.fib_add_two]
          push_cast
          ring

theorem sizeF_append : ∀ ts1 ts2 : List Node,
    sizeF (ts1 ++ ts2) = sizeF ts1 + sizeF ts2 := by
  intro ts1
  induction ts1 using sizeF.induct with
  | case1 => intro ts2; simp [sizeF]
  | case2 i cs ts ih1 ih2 =>
      intro ts2
      simp only [List.cons_append, sizeF, ih2]
      omega

theorem sizeF_nil_of_le_zero : ∀ ts : List Node, sizeF ts ≤ 0 → ts = [] := by
  intro ts h
  cases ts with
  | nil => rfl
  | cons t ts =>
      cases t with
      | mk i cs => simp [sizeF] at h

theorem preorderF_append : ∀ ts1 ts2 : List Node,
    preorderF (ts1 ++ ts2) = preorderF ts1 ++ preorderF ts2 := by
  intro ts1
  induction ts1 using preorderF.induct with
  | case1 => intro ts2; simp [preorderF]
  | case2 i cs ts ih1 ih2 =>
      intro ts2
      simp only [List.cons_append, preorderF, ih2, List.cons_append,
        List.append_assoc]

theorem depthF_append : ∀ ts1 ts2 : List Node,
    depthF (ts1 ++ ts2) = max (depthF ts1) (depthF ts2) := by
  intro ts1
  induction ts1 using depthF.induct with
  | case1 => intro ts2; simp [depthF]
  | case2 i cs ts ih1 ih2 =>
      intro ts2
      simp only [List.cons_append, depthF, ih2]
      omega

theorem depthF_nil_of_le_zero : ∀ ts : List Node, depthF ts ≤ 0 → ts = [] := by
  intro ts h
  cases ts with
  | nil => rfl
  | cons t ts =>
      cases t with
      | mk i cs => simp [depthF] at h

theorem agreesF_cons (st : Store) (i : ℕ) (cs ts : List Node) :
    agreesF st (.mk i cs :: ts) = true ↔
      st i = cs.map nodeId ∧ agreesF st cs = true ∧ agreesF st ts = true := by
  simp [agreesF, Bool.and_eq_true, and_assoc]

theorem agreesF_append : ∀ ts1 ts2 : List Node, ∀ st : Store,
    agreesF st (ts1 ++ ts2) = true ↔
      (agreesF st ts1 = true ∧ agreesF st ts2 = true) := by
  intro ts1
  induction ts1 using sizeF.induct with
  | case1 => intro ts2 st; simp [agreesF]
  | case2 i cs ts ih1 ih2 =>
      intro ts2 st
      simp only [List.cons_append, agreesF_cons, ih2 ts2 st]
      tauto

theorem agreesF_update : ∀ ts : List Node, ∀ st : Store, ∀ j : ℕ,
    ∀ l : List ℕ, j ∉ preorderF ts → agreesF st ts = true →
      agreesF (updateStore st j l) ts = true := by
  intro ts
  induction ts using sizeF.induct with
  | case1 => intro st j l _ _; simp [agreesF]
  | case2 i cs ts ih1 ih2 =>
      intro st j l hmem hag
      rw [agreesF_cons] at hag ⊢
      simp only [preorderF, List.mem_cons, List.mem_append, not_or] at hmem
      refine ⟨?_, ih1 st j l hmem.2.1 hag.2.1, ih2 st j l hmem.2.2 hag.2.2⟩
      rw [updateStore, if_neg (by tauto)]
      exact hag.1

theorem lookupF_isSome : ∀ ts : List Node, ∀ j : ℕ, j ∈ preorderF ts →
    ∃ l, lookupF ts j = some l := by
  intro ts
  induction ts using sizeF.induct with
  | case1 => intro j h; simp [preorderF] at h
  | case2 i cs ts ih1 ih2 =>
      intro j h
      simp only [preorderF, List.mem_cons, List.mem_append] at h
      by_cases hji : j = i
      · exact ⟨cs.map nodeId, by simp [lookupF, hji]⟩
      · rcases h with h | h | h
        · exact absurd h hji
        · obtain ⟨l, hl⟩ := ih1 j h
          exact ⟨l, by simp [lookupF, hji, hl]⟩
        · obtain ⟨l, hl⟩ := ih2 j h
          rw [lookupF, if_neg hji]
          cases hcs : lookupF cs j with
          | some l2 => exact ⟨l2, rfl⟩
          | none => exact ⟨l, by rw [hl]⟩

theorem lookupF_mem : ∀ ts : List Node, ∀ j : ℕ, ∀ l : List ℕ,
    lookupF ts j = some l → j ∈ preorderF ts := by
  intro ts
  induction ts using sizeF.induct with
  | case1 => intro j l h; simp [lookupF] at h
  | case2 i cs ts ih1 ih2 =>
      intro j l h
      simp only [preorderF, List.mem_cons, List.mem_append]
      by_cases hji : j = i
      · exact Or.inl hji
      · rw [lookupF, if_neg hji] at h
        cases hcs : lookupF cs j with
        | some l2 => exact Or.inr (Or.inl (ih1 j l2 hcs))
        | none =>
            rw [hcs] at h
            exact Or.inr (Or.inr (ih2 j l h))

theorem agreesF_of_lookup : ∀ ts : List Node, ∀ st : Store,
    (preorderF ts).Nodup →
    (∀ j ∈ preorderF ts, lookupF ts j = some (st j)) →
    agreesF st ts = true := by
  intro ts
  induction ts using sizeF.induct with
  | case1 => intro st _ _; simp [agreesF]
  | case2 i cs ts ih1 ih2 =>
      intro st hnd hlk
      have hmem_i : i ∈ preorderF (Node.mk i cs :: ts) := by
        simp [preorderF]
      have hsti : st i = cs.map nodeId := by
        have := hlk i hmem_i
        rw [lookupF, if_pos rfl] at this
        exact (Option.some.injEq _ _).mp this.symm
      simp only [preorderF, List.nodup_cons, List.nodup_append] at hnd
      rw [agreesF_cons]
      refine ⟨hsti, ?_, ?_⟩
      · refine ih1 st hnd.2.1 ?_
        intro j hj
        have hji : j ≠ i := fun h => hnd.1 (by
          simp only [preorderF, List.mem_append]
          exact Or.inl (h ▸ hj))
        obtain ⟨l, hl⟩ := lookupF_isSome cs j hj
        have := hlk j (by
          simp only [preorderF, List.mem_cons, List.mem_append]
          exact Or.inr (Or.inl hj))
        rw [lookupF, if_neg hji, hl] at this
        rw [hl]
        exact this
      · refine ih2 st hnd.2.2.1 ?_
        intro j hj
        have hji : j ≠ i := fun h => hnd.1 (by
          simp only [preorderF, List.mem_append]
          exact Or.inr (h ▸ hj))
        have hnotcs : j ∉ preorderF cs := fun hc => hnd.2.2.2 hc hj
        have hcs_none : lookupF cs j = none := by
          cases hcs : lookupF cs j with
          | none => rfl
          | some l2 => exact absurd (lookupF_mem cs j l2 hcs) hnotcs
        have := hlk j (by
          simp only [preorderF, List.mem_cons, List.mem_append]
          exact Or.inr (Or.inr hj))
        rw [lookupF, if_neg hji, hcs_none] at this
        exact this

theorem agreesF_storeOf (t : Node) (hnd : (preorder t).Nodup) :
    agreesF (storeOf t) [t] = true := by
  refine agreesF_of_lookup [t] (storeOf t) hnd ?_
  intro j hj
  obtain ⟨l, hl⟩ := lookupF_isSome [t] j hj
  rw [hl, storeOf, hl]
  rfl

/-! ### Depth-first run = pre-order

Invariant: the stack is the list of root ids of a forest of pairwise
disjoint, still untouched subtrees, and the heap agrees with that forest.
Popping the head reverses only the popped node's own entry, which no longer
occurs in the remaining forest, so agreement is preserved. -/

theorem depthRun_forest : ∀ fuel : ℕ, ∀ ts : List Node, ∀ st : Store,
    agreesF st ts = true → (preorderF ts).Nodup → sizeF ts ≤ fuel →
    (depthRun fuel st (ts.map nodeId)).1 = preorderF ts := by
  intro fuel
  induction fuel with
  | zero =>
      intro ts st _ _ hsz
      rw [sizeF_nil_of_le_zero ts hsz]
      simp [depthRun, preorderF]
  | succ fuel ih =>
      intro ts st hag hnd hsz
      cases ts with
      | nil => simp [depthRun, preorderF]
      | cons t ts =>
          cases t with
          | mk i cs =>
              rw [agreesF_cons] at hag
              simp only [preorderF, List.nodup_cons, List.nodup_append] at hnd
              simp only [List.map_cons, nodeId_mk, depthRun, hag.1]
              have hq : (cs.map nodeId).reverse.reverse ++ ts.map nodeId =
                  (cs ++ ts).map nodeId := by
                simp [List.map_append]
              have hnotin : i ∉ preorderF (cs ++ ts) := by
                rw [preorderF_append]
                exact hnd.1
              have hag' : agreesF (updateStore st i
                  (cs.map nodeId).reverse) (cs ++ ts) = true := by
                refine agreesF_update (cs ++ ts) st i _ hnotin ?_
                exact (agreesF_append cs ts st).mpr ⟨hag.2.1, hag.2.2⟩
              have hnd' : (preorderF (cs ++ ts)).Nodup := by
                rw [preorderF_append]
                exact List.Nodup.append hnd.2.1 hnd.2.2.1 hnd.2.2.2
              have hsz' : sizeF (cs ++ ts) ≤ fuel := by
                rw [sizeF_append]
                have : sizeF (Node.mk i cs :: ts) = 1 + sizeF cs + sizeF ts := by
                  simp [sizeF]
                omega
              have hrec := ih (cs ++ ts) _ hag' hnd' hsz'
              rw [List.map_append] at hrec
              rw [hrec, preorderF_append]
              simp [preorderF]

/-! ### Breadth-first run = level order

`bfsForest` is the queue-of-subtrees view of the breadth-first loop;
`levelsF` lists the forest generation by generation, following the
specification's words. -/

theorem bfsForest_cons (i : ℕ) (cs ts : List Node) :
    bfsForest (.mk i cs :: ts) = i :: bfsForest (ts ++ cs) := by
  simp [bfsForest]

theorem breadthRun_forest : ∀ fuel : ℕ, ∀ ts : List Node, ∀ st : Store,
    agreesF st ts = true → sizeF ts ≤ fuel →
    breadthRun fuel st (ts.map nodeId) = bfsForest ts := by
  intro fuel
  induction fuel with
  | zero =>
      intro ts st _ hsz
      rw [sizeF_nil_of_le_zero ts hsz]
      simp [breadthRun, bfsForest]
  | succ fuel ih =>
      intro ts st hag hsz
      cases ts with
      | nil => simp [breadthRun, bfsForest]
      | cons t ts =>
          cases t with
          | mk i cs =>
              rw [agreesF_cons] at hag
              simp only [List.map_cons, nodeId_mk, breadthRun, hag.1,
                bfsForest_cons]
              have hq : ts.map nodeId ++ cs.map nodeId =
                  (ts ++ cs).map nodeId := by
                simp [List.map_append]
              rw [hq]
              refine congrArg (i :: ·) (ih (ts ++ cs) st ?_ ?_)
              · exact (agreesF_append ts cs st).mpr ⟨hag.2.2, hag.2.1⟩
              · have : sizeF (Node.mk i cs :: ts) = 1 + sizeF cs + sizeF ts := by
                  simp [sizeF]
                rw [sizeF_append]
                omega

theorem bfsForest_round : ∀ cur nxt : List Node,
    bfsForest (cur ++ nxt) =
      cur.map nodeId ++ bfsForest (nxt ++ cur.flatMap childNodes) := by
  intro cur
  induction cur with
  | nil => intro nxt; simp
  | cons t cur ih =>
      intro nxt
      cases t with
      | mk i cs =>
          rw [List.cons_append, bfsForest_cons, List.append_assoc, ih]
          simp only [List.map_cons, nodeId_mk, List.flatMap_cons,
            childNodes_mk, List.cons_append, List.append_assoc]

theorem bfsForest_eq_levels : ∀ d : ℕ, ∀ ts : List Node, depthF ts ≤ d →
    bfsForest ts = (levelsF d ts).flatten := by
  intro d
  induction d with
  | zero =>
      intro ts h
      rw [depthF_nil_of_le_zero ts h]
      simp [bfsForest, levelsF]
  | succ d ih =>
      intro ts h
      have hnext : depthF (ts.flatMap childNodes) ≤ d := by
        clear ih
        induction ts with
        | nil => simp [depthF]
        | cons t ts iht =>
            cases t with
            | mk i cs =>
                simp only [depthF] at h
                simp only [List.flatMap_cons, childNodes, depthF_append]
                have h1 : 1 + depthF cs ≤ d + 1 := le_trans (le_max_left _ _) h
                have h2 : depthF ts ≤ d + 1 := le_trans (le_max_right _ _) h
                have := iht h2
                omega
      have hrnd := bfsForest_round ts []
      simp only [List.append_nil, List.nil_append] at hrnd
      rw [hrnd, levelsF, List.flatten_cons, ih _ hnext]

theorem bfsForest_perm : ∀ ts : List Node,
    (bfsForest ts).Perm (preorderF ts) := by
  intro ts
  induction ts using bfsForest.induct with
  | case1 => simp [bfsForest, preorderF]
  | case2 i cs ts ih =>
      rw [bfsForest_cons, preorderF]
      refine List.Perm.cons i ?_
      refine ih.trans ?_
      rw [preorderF_append]
      exact (List.perm_append_comm).trans (List.Perm.refl _)

theorem mergeOut_succ (s1 s2 : ℕ → Option ℤ) (n : ℕ) :
    mergeOut s1 s2 (n + 1) = mergeOut s1 s2 n ++ mergeRoundAt s1 s2 n := by
  rw [mergeOut_eq_rounds, mergeOut_eq_rounds, List.range_succ,
    List.flatMap_append]
  simp

theorem merge_odd_even (n : ℕ) :
    mergeOut oddSource evenSource n =
      (List.range (2 * n)).map (fun j : ℕ => some ((j : ℤ) + 1)) := by
  induction n with
  | zero => rfl
  | succ n ih =>
      rw [mergeOut_succ, ih]
      have h1 : (2 * (n : ℤ) + 1) = ((2 * n : ℕ) : ℤ) + 1 := by
        push_cast
        ring
      have h2 : (2 * (n : ℤ) + 2) = ((2 * n + 1 : ℕ) : ℤ) + 1 := by
        push_cast
        ring
      have hround : mergeRoundAt oddSource evenSource n =
          [some (((2 * n : ℕ) : ℤ) + 1), some (((2 * n + 1 : ℕ) : ℤ) + 1)] := by
        simp only [mergeRoundAt, oddSource, evenSource, mergeRound]
        rw [min_eq_left (by linarith), max_eq_right (by linarith), h1, h2]
      have hn : 2 * (n + 1) = (2 * n + 1) + 1 := by ring
      rw [hround, hn, List.range_succ, List.range_succ, List.map_append,
        List.map_append]
      simp

theorem merge_single_even (n : ℕ) :
    mergeOut (listSource [0]) evenSource (n + 1) =
      some 0 :: (List.range (n + 1)).map (fun k : ℕ => some (2 * (k : ℤ) + 2)) := by
  induction n with
  | zero => decide
  | succ n ih =>
      rw [mergeOut_succ, ih]
      have hround : mergeRoundAt (listSource [0]) evenSource (n + 1) =
          [some (2 * (((n + 1 : ℕ)) : ℤ) + 2)] := rfl
      rw [hround]
      nth_rewrite 2 [List.range_succ]
      rw [List.map_append]
      simp

/-! ## The claims -/

/-- C1: the claim says that for finite sources the merged sequence ends once
both sources are exhausted.  The code's `while (true)` loop has no exit:
every iteration yields at least one value (so the generator never completes),
and with the finite sources `[0]` and `[1]` every iteration from the second
on yields `undefined` — the merge does not signal exhaustion, contradicting
the claim and the function's own documentation. -/
theorem mergeSortedSequences_no_exhaustion :
    (∀ s1 s2 : ℕ → Option ℤ, ∀ k : ℕ, mergeRoundAt s1 s2 k ≠ []) ∧
      (∀ k : ℕ, mergeRoundAt (listSource [0]) (listSource [1]) (k + 1) =
        [none]) := by
  constructor
  · intro s1 s2 k
    simp only [mergeRoundAt]
    cases s1 k <;> cases s2 k <;> simp [mergeRound]
  · intro k
    rfl

/-- C2, counterexample: the claim says the merge of any two sorted sources
is non-decreasing.  With the sorted sources `[1, 2]` and `[100, 101]` the
first four produced values are `1, 100, 2, 101`, which is not
non-decreasing. -/
theorem mergeSortedSequences_unsorted_output :
    List.Chain' (· ≤ ·) [(1 : ℤ), 2] ∧
      List.Chain' (· ≤ ·) [(100 : ℤ), 101] ∧
      mergeOut (listSource [1, 2]) (listSource [100, 101])
          (max ([1, 2] : List ℤ).length ([100, 101] : List ℤ).length) =
        [some 1, some 100, some 2, some 101] ∧
      ¬ List.Chain' (· ≤ ·) [(1 : ℤ), 100, 2, 101] := by
  refine ⟨by norm_num [List.chain'_cons], by norm_num [List.chain'_cons],
    by decide, by norm_num [List.chain'_cons]⟩

/-- C2, amended: for any two finite sources, the values produced while at
least one source is live (the first `len1 + len2` values, spanning
`max len1 len2` rounds) are exactly the values of the two sources — a
permutation of their concatenation; sortedness of the output does not hold
in general. -/
theorem mergeSortedSequences_first_values_perm :
    ∀ l1 l2 : List ℤ,
      mergeOut (listSource l1) (listSource l2) (max l1.length l2.length) =
        (mergeLists l1 l2).map some ∧
      (mergeLists l1 l2).Perm (l1 ++ l2) :=
  fun l1 l2 => ⟨mergeOut_listSource l1 l2, mergeLists_perm l1 l2⟩

/-- C3: the claim says the traversals never mutate the tree.
`breadthTraversalTree` indeed never writes to the heap (its embedding takes
the store read-only), but `depthTraversalTree` calls
`curr.children.reverse()`, which reverses the children array **in place**:
after a full depth-first run over the documented example tree, node1's
children array has become `[7, 6, 2]` instead of the constructed
`[2, 6, 7]`. -/
theorem depthTraversalTree_reverses_children :
    (depthRun 8 exStoreD [1]).2 1 = [7, 6, 2] ∧
      exStoreD 1 = [2, 6, 7] := by
  refine ⟨by decide, by decide⟩

/-- C4: `depthTraversalTree` produces every node of the tree exactly once,
in pre-order (each node before its subtrees, subtrees in declaration
order); on the documented 8-node example tree the order is exactly
`1, 2, 3, 4, 5, 6, 7, 8`. -/
theorem depthTraversalTree_preorder :
    (∀ t : Node, (preorder t).Nodup →
        (depthRun (sizeF [t]) (storeOf t) [nodeId t]).1 = preorder t) ∧
      (depthRun 8 exStoreD [1]).1 = [1, 2, 3, 4, 5, 6, 7, 8] := by
  constructor
  · intro t hnd
    have h := depthRun_forest (sizeF [t]) [t] (storeOf t)
      (agreesF_storeOf t hnd) hnd (le_refl _)
    simpa using h
  · decide

/-- C4, witness: the general statement applied to the documented example
tree. -/
theorem depthTraversalTree_preorder_witness :
    (preorder exTreeD).Nodup ∧
      (depthRun (sizeF [exTreeD]) (storeOf exTreeD) [nodeId exTreeD]).1 =
        preorder exTreeD := by
  have hpre : preorder exTreeD = [1, 2, 3, 4, 5, 6, 7, 8] := by
    simp [preorder, preorderF, exTreeD]
  have hnd : (preorder exTreeD).Nodup := by rw [hpre]; decide
  exact ⟨hnd, depthTraversalTree_preorder.1 exTreeD hnd⟩

/-- C5: `breadthTraversalTree` produces every node of the tree exactly once
(the output is a permutation of the tree's nodes), in level order — all
generations of the forest in order, each generation left to right in
child-declaration order; a single-node tree produces just its root. -/
theorem breadthTraversalTree_levelOrder :
    (∀ t : Node, (preorder t).Nodup →
        breadthRun (sizeF [t]) (storeOf t) [nodeId t] = levelOrderSpec t ∧
          (breadthRun (sizeF [t]) (storeOf t) [nodeId t]).Perm
            (preorder t)) ∧
      (∀ i : ℕ, breadthRun (sizeF [Node.mk i []])
        (storeOf (Node.mk i [])) [i] = [i]) := by
  constructor
  · intro t hnd
    have hag := agreesF_storeOf t hnd
    have h1 : breadthRun (sizeF [t]) (storeOf t) ([t].map nodeId) =
        bfsForest [t] :=
      breadthRun_forest (sizeF [t]) [t] (storeOf t) hag (le_refl _)
    simp only [List.map_cons, List.map_nil] at h1
    constructor
    · rw [h1, levelOrderSpec]
      exact bfsForest_eq_levels (depthF [t]) [t] (le_refl _)
    · rw [h1]
      exact bfsForest_perm [t]
  · intro i
    have hsz : sizeF [Node.mk i []] = 1 := by simp [sizeF]
    rw [hsz]
    rfl

/-- C5, witness: the general statement applied to the documented example
tree of `breadthTraversalTree`. -/
theorem breadthTraversalTree_levelOrder_witness :
    (preorder exTreeB).Nodup ∧
      breadthRun (sizeF [exTreeB]) (storeOf exTreeB) [nodeId exTreeB] =
        levelOrderSpec exTreeB ∧
      (breadthRun (sizeF [exTreeB]) (storeOf exTreeB)
          [nodeId exTreeB]).Perm (preorder exTreeB) := by
  have hpre : preorder exTreeB = [1, 2, 5, 6, 8, 3, 4, 7] := by
    simp [preorder, preorderF, exTreeB]
  have hnd : (preorder exTreeB).Nodup := by rw [hpre]; decide
  obtain ⟨h1, h2⟩ := breadthTraversalTree_levelOrder.1 exTreeB hnd
  exact ⟨hnd, h1, h2⟩

/-- C6: the merge's round policy.  While both sources are live each round
pulls one value from each and emits the smaller then the larger; once
exactly one source is exhausted, the live source's pulled value is
forwarded alone.  Consequently merging `1, 3, 5, ...` with `2, 4, 6, ...`
yields `1, 2, 3, 4, 5, 6, ...`, and merging `[0]` with `2, 4, 6, ...`
yields `0, 2, 4, 6, ...`. -/
theorem mergeSortedSequences_round_policy :
    (∀ a b : ℤ,
        mergeRound (some a) (some b) = [some (min a b), some (max a b)]) ∧
      (∀ v : ℤ,
        mergeRound none (some v) = [some v] ∧
          mergeRound (some v) none = [some v]) ∧
      (∀ n : ℕ, mergeOut oddSource evenSource n =
        (List.range (2 * n)).map (fun j : ℕ => some ((j : ℤ) + 1))) ∧
      (∀ n : ℕ, mergeOut (listSource [0]) evenSource (n + 1) =
        some 0 :: (List.range (n + 1)).map (fun k : ℕ => some (2 * (k : ℤ) + 2))) :=
  ⟨fun _ _ => rfl, fun _ => ⟨rfl, rfl⟩, merge_odd_even, merge_single_even⟩

/-- C7: `getFibonacciSequence` yields exactly 39 values and then returns;
the `n`-th value is the `n`-th Fibonacci number of the specification's
recurrence, and the 10th value is 55. -/
theorem getFibonacciSequence_terms :
    getFibonacciSequence.length = 39 ∧
      getFibonacciSequence =
        (List.range 39).map (fun n => some (fibSpec n)) ∧
      getFibonacciSequence.get? 10 = some (some 55) := by
  have hmap : (List.range 39).map (fun n => some (fibSpec n)) =
      (List.range 39).map (fun n => some ((Nat.fib n : ℤ))) :=
    List.map_congr_left (fun n _ => by rw [fibSpec_eq_fib])
  refine ⟨by decide, ?_, by decide⟩
  rw [hmap]
  decide

/-- C8: the claim says invoking a producer twice yields two sequences with
identical content, the first consumption not affecting the second.  For
`depthTraversalTree` this fails: the in-place `reverse()` leaves the heap
mutated, so on the documented example tree the first full run yields
`1..8` while a second full run over the mutated heap yields
`1, 7, 8, 6, 2, 4, 5, 3`. -/
theorem depthTraversalTree_second_run_differs :
    (depthRun 8 exStoreD [1]).1 = [1, 2, 3, 4, 5, 6, 7, 8] ∧
      (depthRun 8 (depthRun 8 exStoreD [1]).2 [1]).1 =
        [1, 7, 8, 6, 2, 4, 5, 3] ∧
      (depthRun 8 (depthRun 8 exStoreD [1]).2 [1]).1 ≠
        (depthRun 8 exStoreD [1]).1 := by
  refine ⟨by decide, by decide, by decide⟩

/-- C9: `isLeapYear` returns true exactly on Gregorian leap years —
divisible by 4 and not by 100, or divisible by 400; 1900 is not a leap
year, 2000 is. -/
theorem isLeapYear_gregorian_rule :
    (∀ y : ℤ, isLeapYear y = true ↔
        ((4 ∣ y ∧ ¬ (100 ∣ y)) ∨ 400 ∣ y)) ∧
      isLeapYear 1900 = false ∧ isLeapYear 2000 = true := by
  refine ⟨?_, by decide, by decide⟩
  intro y
  simp only [isLeapYear, Bool.or_eq_true, Bool.and_eq_true, beq_iff_eq,
    bne_iff_ne, ne_eq]
  rw [Int.dvd_iff_emod_eq_zero, Int.dvd_iff_emod_eq_zero,
    Int.dvd_iff_emod_eq_zero]

set_option maxRecDepth 10000 in
/-- C10: `get99BottlesOfBeer` yields exactly 200 strings: for each count
from 99 down to 1 a verse line and a take-down line (singular "1 bottle"
where the count in the line is 1, "no more bottles" in the final
take-down), then the two fixed closing lines. -/
theorem get99BottlesOfBeer_song :
    get99BottlesOfBeer.length = 200 ∧
      get99BottlesOfBeer = beerSongSpec := by
  refine ⟨by decide, by decide⟩

end DateTasks
